import Mathlib

/-!
Verification of the move-sequence and combinatorics core of tpscube
(src/lib/cubecommon.cpp).

The C++ `CubeMove` enumeration is int-backed; we model a move value as an
`Int` (its ordinal).  A `CubeMoveSequence` holds a vector of moves; we model
it as a `List Int`.  C++ `int` arithmetic in `NChooseK` is modelled by
unbounded `Int` with `Int.tdiv` for the C truncating division (signed
overflow is undefined behaviour in C++ and outside the spec's scope).
-/

namespace Cube

/-- Modelled from the spec: the `CubeMove` enumeration of `cubecommon.h`
(the header is not part of the sources).  Spec §3: 18 variants with
contiguous ordinals starting at 0, grouped in 6 triples by face in the order
Up, Front, Right, Back, Left, Down, each triple ordered
{clockwise, counter-clockwise, half-turn}.  This matches the per-entry
comments of the inversion table in `cubecommon.cpp`. -/
def MOVE_U : Int := 0

def MOVE_Up : Int := 1

def MOVE_U2 : Int := 2

def MOVE_F : Int := 3

def MOVE_Fp : Int := 4

def MOVE_F2 : Int := 5

def MOVE_R : Int := 6

def MOVE_Rp : Int := 7

def MOVE_R2 : Int := 8

def MOVE_B : Int := 9

def MOVE_Bp : Int := 10

def MOVE_B2 : Int := 11

def MOVE_L : Int := 12

def MOVE_Lp : Int := 13

def MOVE_L2 : Int := 14

def MOVE_D : Int := 15

def MOVE_Dp : Int := 16

def MOVE_D2 : Int := 17

/-- A move value is one of the 18 valid enumeration ordinals. -/
def isValidMove (m : Int) : Prop := 0 ≤ m ∧ m ≤ MOVE_D2

instance (m : Int) : Decidable (isValidMove m) :=
  inferInstanceAs (Decidable (0 ≤ m ∧ m ≤ MOVE_D2))

namespace CubeMoveSequence

/-- `CubeMoveSequence::MoveToString`: the `switch` over the 18 moves, with
the `default: return "";` branch for any other value. -/
def MoveToString (move : Int) : String :=
  if move = MOVE_U then "U"
  else if move = MOVE_Up then "U'"
  else if move = MOVE_U2 then "U2"
  else if move = MOVE_F then "F"
  else if move = MOVE_Fp then "F'"
  else if move = MOVE_F2 then "F2"
  else if move = MOVE_R then "R"
  else if move = MOVE_Rp then "R'"
  else if move = MOVE_R2 then "R2"
  else if move = MOVE_B then "B"
  else if move = MOVE_Bp then "B'"
  else if move = MOVE_B2 then "B2"
  else if move = MOVE_L then "L"
  else if move = MOVE_Lp then "L'"
  else if move = MOVE_L2 then "L2"
  else if move = MOVE_D then "D"
  else if move = MOVE_Dp then "D'"
  else if move = MOVE_D2 then "D2"
  else ""

/-- The static `inverted` table of `CubeMoveSequence::InvertedMove`,
size `MOVE_D2 + 1 = 18`, in ordinal order. -/
def invertedTable : List Int :=
  [MOVE_Up, MOVE_U, MOVE_U2,
   MOVE_Fp, MOVE_F, MOVE_F2,
   MOVE_Rp, MOVE_R, MOVE_R2,
   MOVE_Bp, MOVE_B, MOVE_B2,
   MOVE_Lp, MOVE_L, MOVE_L2,
   MOVE_Dp, MOVE_D, MOVE_D2]

/-- `CubeMoveSequence::InvertedMove`: `return inverted[move];`.  The C++
code indexes the table unchecked; out-of-range access is undefined
behaviour, so the default value taken by `getD` outside `[0, 17]` is
immaterial (no claim touches it). -/
def InvertedMove (move : Int) : Int := invertedTable.getD move.toNat 0

/-- Modelled from the spec: the `RandomSource` interface of `scramble.h`
(the header is not part of the sources).  Spec §6: it exposes a single
capability `Next(bound)` returning an integer in `[0, bound)`. -/
structure RandomSource where
  Next : Int → Int

/-- `CubeMoveSequence::RandomMove`: `return (CubeMove)rng.Next(MOVE_D2 + 1);`. -/
def RandomMove (rng : RandomSource) : Int := rng.Next (MOVE_D2 + 1)

/-- The loop body of `CubeMoveSequence::ToString`: for each move, first
append a separator if the accumulated `result` is nonempty, then append the
move's token. -/
def toStringAux (result : String) : List Int → String
  | [] => result
  | i :: rest =>
      let r := if result.length > 0 then result ++ " " else result
      toStringAux (r ++ MoveToString i) rest

/-- `CubeMoveSequence::ToString`: fold the loop body over the moves starting
from the empty string. -/
def SeqToString (moves : List Int) : String := toStringAux "" moves

/-- `CubeMoveSequence::Inverted`: iterate the moves in reverse order
(`rbegin` to `rend`), pushing the inverse of each onto the result. -/
def Inverted (moves : List Int) : List Int :=
  moves.reverse.foldl (fun result i => result ++ [InvertedMove i]) []

end CubeMoveSequence

/-- One iteration of the `NChooseK` loop is
`result *= i; result /= denom++;` with C++ truncating integer division;
`i` descends by one each iteration.  The `Nat` argument is the trip count
of the loop `for (int i = n; i > (n - k); i--)`: starting at `i = n` and
decrementing, the guard `i > n - k` holds for exactly `k.toNat` trips. -/
def chooseIter (result denom i : Int) : Nat → Int
  | 0 => result
  | Nat.succ t => chooseIter (Int.tdiv (result * i) denom) (denom + 1) (i - 1) t

/-- `NChooseK` from `cubecommon.cpp`: guard `n < k`, symmetry substitution
`k = n - k` when `k > n / 2` (C++ truncating division), then the
multiply-divide loop starting from `result = 1`, `denom = 1`. -/
def NChooseK (n k : Int) : Int :=
  if n < k then 0
  else
    let k2 := if k > Int.tdiv n 2 then n - k else k
    chooseIter 1 1 n k2.toNat

/-- `NChooseK` with the symmetry substitution step removed, used only to
state that the substitution does not change the returned value. -/
def NChooseKNoSym (n k : Int) : Int :=
  if n < k then 0
  else chooseIter 1 1 n k.toNat

/-- The spec's description of sequence rendering (§4.4): the per-move
tokens joined by a single space separator, in input order, with no leading
or trailing separator. -/
def specJoin : List Int → String
  | [] => ""
  | [m] => CubeMoveSequence.MoveToString m
  | m :: rest => CubeMoveSequence.MoveToString m ++ " " ++ specJoin rest

/-- The suffix of text the `ToString` loop appends after the accumulator is
already nonempty: a space and the token, for each remaining move. -/
def sepJoin : List Int → String
  | [] => ""
  | m :: rest => " " ++ CubeMoveSequence.MoveToString m ++ sepJoin rest

/-! ### Lemmas about the binomial-coefficient loop -/

lemma tdiv_ofNat (a b : ℕ) : Int.tdiv (a : Int) (b : Int) = ((a / b : ℕ) : Int) := rfl

/-- Loop invariant of `NChooseK`: entering an iteration with
`result = C(n, j)`, `denom = j + 1` and `i = n - j`, running `t` more
iterations yields `C(n, j + t)`.  Each division in between is exact. -/
lemma chooseIter_eq_choose (n : ℕ) :
    ∀ (t j : ℕ), j + t ≤ n →
      chooseIter (Nat.choose n j : Int) ((j : Int) + 1) ((n : Int) - (j : Int)) t
        = (Nat.choose n (j + t) : Int) := by
  intro t
  induction t with
  | zero => intro j h; simp [chooseIter]
  | succ t ih =>
    intro j h
    have hstep : Int.tdiv ((Nat.choose n j : Int) * ((n : Int) - (j : Int))) ((j : Int) + 1)
        = (Nat.choose n (j + 1) : Int) := by
      have h1 : ((n : Int) - (j : Int)) = ((n - j : ℕ) : Int) := by omega
      have h2 : ((j : Int) + 1) = ((j + 1 : ℕ) : Int) := by omega
      rw [h1, h2, ← Nat.cast_mul, tdiv_ofNat, ← Nat.choose_succ_right_eq,
        Nat.mul_div_cancel _ (by omega : 0 < j + 1)]
    have e1 : ((j : Int) + 1) + 1 = (((j + 1 : ℕ) : Int)) + 1 := by push_cast; ring
    have e2 : ((n : Int) - (j : Int)) - 1 = (n : Int) - ((j + 1 : ℕ) : Int) := by
      push_cast; ring
    have e3 : (j + 1) + t = j + (t + 1) := by omega
    calc chooseIter (Nat.choose n j : Int) ((j : Int) + 1) ((n : Int) - (j : Int)) (t + 1)
        = chooseIter (Int.tdiv ((Nat.choose n j : Int) * ((n : Int) - (j : Int))) ((j : Int) + 1))
            (((j : Int) + 1) + 1) (((n : Int) - (j : Int)) - 1) t := rfl
      _ = chooseIter (Nat.choose n (j + 1) : Int) (((j + 1 : ℕ) : Int) + 1)
            ((n : Int) - ((j + 1 : ℕ) : Int)) t := by rw [hstep, e1, e2]
      _ = (Nat.choose n ((j + 1) + t) : Int) := ih (j + 1) (by omega)
      _ = (Nat.choose n (j + (t + 1)) : Int) := by rw [e3]

/-- Running the loop from the initial state `result = 1`, `denom = 1`,
`i = n` for `k ≤ n` iterations computes `C(n, k)`. -/
lemma chooseIter_from_one (n k : ℕ) (h : k ≤ n) :
    chooseIter 1 1 (n : Int) k = (Nat.choose n k : Int) := by
  have h0 := chooseIter_eq_choose n k 0 (by omega)
  simpa using h0

lemma NChooseK_eq_choose (n k : Int) (h0 : 0 ≤ k) (hkn : k ≤ n) :
    NChooseK n k = (Nat.choose n.toNat k.toNat : Int) := by
  have hn : (n.toNat : Int) = n := Int.toNat_of_nonneg (by omega)
  by_cases hc : k > Int.tdiv n 2
  · simp only [NChooseK, if_neg (show ¬ n < k by omega), if_pos hc]
    have h1 := chooseIter_from_one n.toNat (n - k).toNat (by omega)
    rw [hn] at h1
    rw [h1, show (n - k).toNat = n.toNat - k.toNat by omega,
      Nat.choose_symm (by omega : k.toNat ≤ n.toNat)]
  · simp only [NChooseK, if_neg (show ¬ n < k by omega), if_neg hc]
    have h1 := chooseIter_from_one n.toNat k.toNat (by omega)
    rwa [hn] at h1

lemma NChooseKNoSym_eq_choose (n k : Int) (h0 : 0 ≤ k) (hkn : k ≤ n) :
    NChooseKNoSym n k = (Nat.choose n.toNat k.toNat : Int) := by
  have hn : (n.toNat : Int) = n := Int.toNat_of_nonneg (by omega)
  simp only [NChooseKNoSym, if_neg (show ¬ n < k by omega)]
  have h1 := chooseIter_from_one n.toNat k.toNat (by omega)
  rwa [hn] at h1

/-- For a negative `k`, the truncating `n / 2` can never lie strictly below
`k` when `k ≤ n`, so the symmetry substitution of `NChooseK` does not fire. -/
lemma neg_le_tdiv_two {n k : Int} (hk : k < 0) (hkn : k ≤ n) : k ≤ Int.tdiv n 2 := by
  cases n with
  | ofNat m =>
      have h1 : Int.tdiv (Int.ofNat m) 2 = ((m / 2 : ℕ) : Int) := rfl
      rw [h1]
      omega
  | negSucc m =>
      have h1 : Int.tdiv (Int.negSucc m) 2 = -(((m + 1) / 2 : ℕ) : Int) := rfl
      have h3 : Int.negSucc m = -((m : Int) + 1) := Int.negSucc_eq m
      rw [h1]
      rw [h3] at hkn
      omega

/-- C1: for all integers `0 ≤ k ≤ n`, `NChooseK n k` is the binomial
coefficient `C(n, k)`; in particular `NChooseK 5 2 = 10` and
`NChooseK 5 0 = 1`; and whenever `n < k` it returns `0`. -/
theorem nChooseK_binomial :
    (∀ n k : Int, 0 ≤ k → k ≤ n → NChooseK n k = (Nat.choose n.toNat k.toNat : Int))
      ∧ NChooseK 5 2 = 10 ∧ NChooseK 5 0 = 1
      ∧ (∀ n k : Int, n < k → NChooseK n k = 0) := by
  refine ⟨fun n k h0 h1 => NChooseK_eq_choose n k h0 h1, by decide, by decide,
    fun n k h => ?_⟩
  simp only [NChooseK, if_pos h]

/-- Witness for C1 at concrete inputs. -/
theorem nChooseK_binomial_witness :
    NChooseK 10 4 = (Nat.choose (10 : Int).toNat (4 : Int).toNat : Int)
      ∧ NChooseK 3 5 = 0 :=
  ⟨nChooseK_binomial.1 10 4 (by decide) (by decide),
   nChooseK_binomial.2.2.2 3 5 (by decide)⟩

/-- C2: after `j` iterations of the loop (for inputs `0 ≤ j ≤ n`, as
produced by the guard and the symmetry substitution) the running `result`
is exactly `C(n, j)`, and the next division is exact: the denominator
`denom = j + 1` divides `result * i = C(n, j) * (n - j)`. -/
theorem chooseIter_partial_and_exact :
    ∀ n j : ℕ, j ≤ n →
      chooseIter 1 1 (n : Int) j = (Nat.choose n j : Int)
        ∧ ((j : Int) + 1) ∣ (Nat.choose n j : Int) * ((n : Int) - (j : Int)) := by
  intro n j h
  refine ⟨chooseIter_from_one n j h, ⟨(Nat.choose n (j + 1) : Int), ?_⟩⟩
  have h1 : ((n : Int) - (j : Int)) = ((n - j : ℕ) : Int) := by omega
  have hnat : Nat.choose n j * (n - j) = (j + 1) * Nat.choose n (j + 1) := by
    rw [← Nat.choose_succ_right_eq n j]; ring
  rw [h1]
  exact_mod_cast hnat

/-- Witness for C2 at `n = 5`, `j = 2`. -/
theorem chooseIter_partial_and_exact_witness :
    chooseIter 1 1 ((5 : ℕ) : Int) 2 = (Nat.choose 5 2 : Int)
      ∧ (((2 : ℕ) : Int) + 1) ∣ (Nat.choose 5 2 : Int) * (((5 : ℕ) : Int) - ((2 : ℕ) : Int)) :=
  chooseIter_partial_and_exact 5 2 (by decide)

/-- C8: for `0 ≤ k ≤ n`, `NChooseK n k = NChooseK n (n - k)`, and the
symmetry substitution does not change the returned value: the variant
without the substitution returns the same result. -/
theorem nChooseK_symm_substitution :
    (∀ n k : Int, 0 ≤ k → k ≤ n → NChooseK n k = NChooseK n (n - k))
      ∧ (∀ n k : Int, 0 ≤ k → k ≤ n → NChooseK n k = NChooseKNoSym n k) := by
  constructor
  · intro n k h0 h1
    rw [NChooseK_eq_choose n k h0 h1, NChooseK_eq_choose n (n - k) (by omega) (by omega),
      show (n - k).toNat = n.toNat - k.toNat by omega,
      Nat.choose_symm (by omega : k.toNat ≤ n.toNat)]
  · intro n k h0 h1
    rw [NChooseK_eq_choose n k h0 h1, NChooseKNoSym_eq_choose n k h0 h1]

/-- Witness for C8 at `n = 5`, `k = 2`. -/
theorem nChooseK_symm_substitution_witness :
    NChooseK 5 2 = NChooseK 5 (5 - 2) ∧ NChooseK 5 2 = NChooseKNoSym 5 2 :=
  ⟨nChooseK_symm_substitution.1 5 2 (by decide) (by decide),
   nChooseK_symm_substitution.2 5 2 (by decide) (by decide)⟩

/-- C10: for negative `k` with `k ≤ n`, `NChooseK n k` returns `1`: the
`n < k` guard does not fire, the symmetry substitution does not fire, and
the loop body never executes. -/
theorem nChooseK_neg_k (n k : Int) (hk : k < 0) (hkn : k ≤ n) : NChooseK n k = 1 := by
  have hd : ¬ k > Int.tdiv n 2 := not_lt.mpr (neg_le_tdiv_two hk hkn)
  simp only [NChooseK, if_neg (show ¬ n < k by omega), if_neg hd]
  rw [show k.toNat = 0 by omega]
  rfl

/-- Witness for C10: `NChooseK 5 (-2) = 1`. -/
theorem nChooseK_neg_k_witness : NChooseK 5 (-2) = 1 :=
  nChooseK_neg_k 5 (-2) (by decide) (by decide)

/-! ### Lemmas about move inversion and sequence inversion -/

lemma foldl_push_eq_map (f : Int → Int) :
    ∀ (l acc : List Int), l.foldl (fun r m => r ++ [f m]) acc = acc ++ l.map f := by
  intro l
  induction l with
  | nil => intro acc; simp
  | cons x xs ih => intro acc; simp [ih]

/-- C3: `Inverted` returns the input sequence reversed with each move
individually inverted. -/
theorem inverted_eq_reverse_map (moves : List Int)
    (_h : ∀ m ∈ moves, isValidMove m) :
    CubeMoveSequence.Inverted moves
      = moves.reverse.map CubeMoveSequence.InvertedMove := by
  unfold CubeMoveSequence.Inverted
  rw [foldl_push_eq_map]
  simp

/-- Witness for C3: inverting `[R, U]` gives `[U', R']`. -/
theorem inverted_eq_reverse_map_witness :
    CubeMoveSequence.Inverted [MOVE_R, MOVE_U]
      = ([MOVE_R, MOVE_U]).reverse.map CubeMoveSequence.InvertedMove :=
  inverted_eq_reverse_map [MOVE_R, MOVE_U] (by decide)

/-- C4: over the 18 valid moves, `InvertedMove` swaps the clockwise and
counter-clockwise quarter-turns of each face and fixes the half-turns, and
is therefore an involution. -/
theorem invertedMove_table_and_involution :
    (∀ m : Int, isValidMove m →
        CubeMoveSequence.InvertedMove (CubeMoveSequence.InvertedMove m) = m)
      ∧ (CubeMoveSequence.InvertedMove MOVE_U = MOVE_Up
        ∧ CubeMoveSequence.InvertedMove MOVE_Up = MOVE_U
        ∧ CubeMoveSequence.InvertedMove MOVE_U2 = MOVE_U2
        ∧ CubeMoveSequence.InvertedMove MOVE_F = MOVE_Fp
        ∧ CubeMoveSequence.InvertedMove MOVE_Fp = MOVE_F
        ∧ CubeMoveSequence.InvertedMove MOVE_F2 = MOVE_F2
        ∧ CubeMoveSequence.InvertedMove MOVE_R = MOVE_Rp
        ∧ CubeMoveSequence.InvertedMove MOVE_Rp = MOVE_R
        ∧ CubeMoveSequence.InvertedMove MOVE_R2 = MOVE_R2
        ∧ CubeMoveSequence.InvertedMove MOVE_B = MOVE_Bp
        ∧ CubeMoveSequence.InvertedMove MOVE_Bp = MOVE_B
        ∧ CubeMoveSequence.InvertedMove MOVE_B2 = MOVE_B2
        ∧ CubeMoveSequence.InvertedMove MOVE_L = MOVE_Lp
        ∧ CubeMoveSequence.InvertedMove MOVE_Lp = MOVE_L
        ∧ CubeMoveSequence.InvertedMove MOVE_L2 = MOVE_L2
        ∧ CubeMoveSequence.InvertedMove MOVE_D = MOVE_Dp
        ∧ CubeMoveSequence.InvertedMove MOVE_Dp = MOVE_D
        ∧ CubeMoveSequence.InvertedMove MOVE_D2 = MOVE_D2) := by
  constructor
  · intro m hm
    simp only [isValidMove, MOVE_D2] at hm
    obtain ⟨h0, h1⟩ := hm
    interval_cases m <;> decide
  · decide

/-- Witness for C4 at `MOVE_R`. -/
theorem invertedMove_table_and_involution_witness :
    CubeMoveSequence.InvertedMove (CubeMoveSequence.InvertedMove MOVE_R) = MOVE_R :=
  invertedMove_table_and_involution.1 MOVE_R (by decide)

/-- The `default` branch of the `switch`: any value outside the 18 valid
ordinals falls through every case and yields the empty string. -/
lemma moveToString_invalid (m : Int) (hm : ¬ isValidMove m) :
    CubeMoveSequence.MoveToString m = "" := by
  simp only [isValidMove, MOVE_D2] at hm
  unfold CubeMoveSequence.MoveToString
  simp only [MOVE_U, MOVE_Up, MOVE_U2, MOVE_F, MOVE_Fp, MOVE_F2, MOVE_R, MOVE_Rp,
    MOVE_R2, MOVE_B, MOVE_Bp, MOVE_B2, MOVE_L, MOVE_Lp, MOVE_L2, MOVE_D, MOVE_Dp,
    MOVE_D2]
  rw [if_neg (show ¬ m = 0 by omega), if_neg (show ¬ m = 1 by omega),
    if_neg (show ¬ m = 2 by omega), if_neg (show ¬ m = 3 by omega),
    if_neg (show ¬ m = 4 by omega), if_neg (show ¬ m = 5 by omega),
    if_neg (show ¬ m = 6 by omega), if_neg (show ¬ m = 7 by omega),
    if_neg (show ¬ m = 8 by omega), if_neg (show ¬ m = 9 by omega),
    if_neg (show ¬ m = 10 by omega), if_neg (show ¬ m = 11 by omega),
    if_neg (show ¬ m = 12 by omega), if_neg (show ¬ m = 13 by omega),
    if_neg (show ¬ m = 14 by omega), if_neg (show ¬ m = 15 by omega),
    if_neg (show ¬ m = 16 by omega), if_neg (show ¬ m = 17 by omega)]

/-- Each of the 18 valid moves has a nonempty token. -/
lemma moveToString_length_pos (m : Int) (h : isValidMove m) :
    0 < (CubeMoveSequence.MoveToString m).length := by
  simp only [isValidMove, MOVE_D2] at h
  obtain ⟨h0, h1⟩ := h
  interval_cases m <;> decide

/-- C6: `MoveToString` maps each of the 18 valid moves to its non-empty
token (face letter, then nothing for clockwise, `'` for counter-clockwise,
`2` for half-turn), and maps every other value to the empty string. -/
theorem moveToString_tokens :
    (CubeMoveSequence.MoveToString MOVE_U = "U"
      ∧ CubeMoveSequence.MoveToString MOVE_Up = "U'"
      ∧ CubeMoveSequence.MoveToString MOVE_U2 = "U2"
      ∧ CubeMoveSequence.MoveToString MOVE_F = "F"
      ∧ CubeMoveSequence.MoveToString MOVE_Fp = "F'"
      ∧ CubeMoveSequence.MoveToString MOVE_F2 = "F2"
      ∧ CubeMoveSequence.MoveToString MOVE_R = "R"
      ∧ CubeMoveSequence.MoveToString MOVE_Rp = "R'"
      ∧ CubeMoveSequence.MoveToString MOVE_R2 = "R2"
      ∧ CubeMoveSequence.MoveToString MOVE_B = "B"
      ∧ CubeMoveSequence.MoveToString MOVE_Bp = "B'"
      ∧ CubeMoveSequence.MoveToString MOVE_B2 = "B2"
      ∧ CubeMoveSequence.MoveToString MOVE_L = "L"
      ∧ CubeMoveSequence.MoveToString MOVE_Lp = "L'"
      ∧ CubeMoveSequence.MoveToString MOVE_L2 = "L2"
      ∧ CubeMoveSequence.MoveToString MOVE_D = "D"
      ∧ CubeMoveSequence.MoveToString MOVE_Dp = "D'"
      ∧ CubeMoveSequence.MoveToString MOVE_D2 = "D2")
      ∧ (∀ m : Int, ¬ isValidMove m → CubeMoveSequence.MoveToString m = "") := by
  constructor
  · decide
  · exact fun m hm => moveToString_invalid m hm

/-- Witness for C6 at the out-of-range value 99. -/
theorem moveToString_tokens_witness : CubeMoveSequence.MoveToString 99 = "" :=
  moveToString_tokens.2 99 (by decide)

/-- C7: `RandomMove` returns exactly the value the injected source produces
for the bound 18, and that value is a valid move whenever the source
respects the `[0, bound)` contract. -/
theorem randomMove_bound :
    (∀ rng : CubeMoveSequence.RandomSource,
        CubeMoveSequence.RandomMove rng = rng.Next 18)
      ∧ (∀ rng : CubeMoveSequence.RandomSource,
          (∀ b : Int, 0 < b → 0 ≤ rng.Next b ∧ rng.Next b < b) →
          isValidMove (CubeMoveSequence.RandomMove rng)) := by
  constructor
  · intro rng; rfl
  · intro rng h
    have hb := h 18 (by decide)
    have he : CubeMoveSequence.RandomMove rng = rng.Next 18 := rfl
    simp only [isValidMove, MOVE_D2, he]
    exact ⟨hb.1, by omega⟩

/-- Witness for C7 with a concrete in-contract source. -/
theorem randomMove_bound_witness :
    isValidMove (CubeMoveSequence.RandomMove ⟨fun b => b - 1⟩) :=
  randomMove_bound.2 ⟨fun b => b - 1⟩
    (fun b hb => ⟨show (0 : Int) ≤ b - 1 by omega, show b - 1 < b by omega⟩)

/-! ### Lemmas about sequence rendering -/

/-- Once the accumulator is nonempty the `ToString` loop appends a space
and the token for every remaining move, token empty or not. -/
lemma toStringAux_of_acc_pos :
    ∀ (ms : List Int) (acc : String), 0 < acc.length →
      CubeMoveSequence.toStringAux acc ms = acc ++ sepJoin ms := by
  intro ms
  induction ms with
  | nil =>
      intro acc h
      simp [CubeMoveSequence.toStringAux, sepJoin, String.append_empty]
  | cons x xs ih =>
      intro acc h
      simp only [CubeMoveSequence.toStringAux]
      rw [if_pos h]
      rw [ih _ (by simp only [String.length_append]; omega)]
      rw [show sepJoin (x :: xs)
          = " " ++ CubeMoveSequence.MoveToString x ++ sepJoin xs from rfl]
      simp [String.append_assoc]

/-- The `ToString` loop never shrinks a nonempty accumulator to empty. -/
lemma toStringAux_length_pos :
    ∀ (ms : List Int) (acc : String), 0 < acc.length →
      0 < (CubeMoveSequence.toStringAux acc ms).length := by
  intro ms
  induction ms with
  | nil => intro acc h; simpa [CubeMoveSequence.toStringAux] using h
  | cons x xs ih =>
      intro acc h
      simp only [CubeMoveSequence.toStringAux]
      rw [if_pos h]
      exact ih _ (by simp only [String.length_append]; omega)

/-- A sequence containing at least one valid move renders to a nonempty
string, whatever the starting accumulator. -/
lemma toStringAux_length_pos_of_valid_mem :
    ∀ (ms : List Int) (acc : String), (∃ m ∈ ms, isValidMove m) →
      0 < (CubeMoveSequence.toStringAux acc ms).length := by
  intro ms
  induction ms with
  | nil => intro acc h; exact absurd h (by simp)
  | cons x xs ih =>
      intro acc h
      simp only [CubeMoveSequence.toStringAux]
      by_cases hx : isValidMove x
      · apply toStringAux_length_pos
        have hp := moveToString_length_pos x hx
        simp only [String.length_append]
        omega
      · apply ih
        rcases h with ⟨m, hm, hv⟩
        rcases List.mem_cons.mp hm with rfl | hxs
        · exact absurd hv hx
        · exact ⟨m, hxs, hv⟩

/-- The `ToString` loop over a concatenation is the loop over the first
part continued over the second. -/
lemma toStringAux_append :
    ∀ (xs ys : List Int) (acc : String),
      CubeMoveSequence.toStringAux acc (xs ++ ys)
        = CubeMoveSequence.toStringAux (CubeMoveSequence.toStringAux acc xs) ys := by
  intro xs
  induction xs with
  | nil => intro ys acc; rfl
  | cons x xs ih =>
      intro ys acc
      simp only [List.cons_append, CubeMoveSequence.toStringAux]
      exact ih ys _

/-- The spec-side join of a nonempty sequence is the head token followed by
a space-prefixed token for each remaining move. -/
lemma specJoin_cons :
    ∀ (rest : List Int) (m : Int),
      specJoin (m :: rest) = CubeMoveSequence.MoveToString m ++ sepJoin rest := by
  intro rest
  induction rest with
  | nil => intro m; simp [specJoin, sepJoin, String.append_empty]
  | cons y ys ih =>
      intro m
      rw [show specJoin (m :: y :: ys)
          = CubeMoveSequence.MoveToString m ++ " " ++ specJoin (y :: ys) from rfl]
      rw [ih y]
      rw [show sepJoin (y :: ys)
          = " " ++ CubeMoveSequence.MoveToString y ++ sepJoin ys from rfl]
      simp [String.append_assoc]

/-- C5: on sequences of valid moves, `ToString` produces the per-move
tokens joined by single spaces in input order (so no leading or trailing
separator); the empty sequence gives the empty string, and
`[R, U, R', U']` renders exactly as shown. -/
theorem seqToString_joins :
    (∀ moves : List Int, (∀ m ∈ moves, isValidMove m) →
        CubeMoveSequence.SeqToString moves = specJoin moves)
      ∧ CubeMoveSequence.SeqToString [] = ""
      ∧ CubeMoveSequence.SeqToString [MOVE_R, MOVE_U, MOVE_Rp, MOVE_Up] = "R U R' U'" := by
  refine ⟨?_, rfl, by decide⟩
  intro moves h
  cases moves with
  | nil => rfl
  | cons x xs =>
      have hx : isValidMove x := h x (by simp)
      have hlen := moveToString_length_pos x hx
      unfold CubeMoveSequence.SeqToString
      simp only [CubeMoveSequence.toStringAux]
      rw [if_neg (by decide)]
      rw [toStringAux_of_acc_pos xs _
        (by simp only [String.length_append]; omega)]
      rw [specJoin_cons xs x, String.empty_append]

/-- Witness for C5 on the all-valid sequence `[R, U]`. -/
theorem seqToString_joins_witness :
    CubeMoveSequence.SeqToString [MOVE_R, MOVE_U] = specJoin [MOVE_R, MOVE_U] :=
  seqToString_joins.1 [MOVE_R, MOVE_U] (by decide)

/-- C9: appending a move outside the 18 valid values to a sequence that
contains a valid move makes `ToString` emit the separator for it but an
empty token, so the output ends in a space. -/
theorem seqToString_trailing_space (init : List Int) (bad : Int)
    (hbad : ¬ isValidMove bad) (hinit : ∃ m ∈ init, isValidMove m) :
    CubeMoveSequence.SeqToString (init ++ [bad])
      = CubeMoveSequence.SeqToString init ++ " " := by
  have hpos : 0 < (CubeMoveSequence.SeqToString init).length :=
    toStringAux_length_pos_of_valid_mem init "" hinit
  unfold CubeMoveSequence.SeqToString at hpos ⊢
  rw [toStringAux_append init [bad] ""]
  simp only [CubeMoveSequence.toStringAux]
  rw [if_pos hpos, moveToString_invalid bad hbad, String.append_empty]

/-- Witness for C9: `SeqToString [R, 18]` is `"R "`. -/
theorem seqToString_trailing_space_witness :
    CubeMoveSequence.SeqToString ([MOVE_R] ++ [18])
      = CubeMoveSequence.SeqToString [MOVE_R] ++ " " :=
  seqToString_trailing_space [MOVE_R] 18 (by decide) (by decide)

end Cube
